import Mathlib

/-!
Verification of the semantic indexing and retrieval core of the NAS file
manager.  The chunker, index manager and retriever are modelled from the
design specification (the backend sources are not part of this tree); the
frontend components (similarity display, login port toggle) and the folder
status enumeration are translated from the TypeScript sources.
-/

namespace FileManagerNas

/-- Modelled from the spec: the sliding-window loop of the text chunker
(the backend helper chunk_text, absent from this tree).  Window `i` starts
at `i * (chunk_size - chunk_overlap)` and spans `chunk_size` characters;
the loop stops when the window start reaches the text length.  The while
loop is embedded with explicit fuel; `none` means the fuel ran out. -/
def chunkLoop (text : List Char) (cs ov : Nat) : Nat → Nat → Option (List (List Char))
  | 0, _ => none
  | fuel + 1, start =>
    if start < text.length then
      match chunkLoop text cs ov fuel (start + (cs - ov)) with
      | none => none
      | some rest => some (((text.drop start).take cs) :: rest)
    else
      some []

/-- Modelled from the spec: chunk_text splits raw text into overlapping
fixed-size windows; chunk_overlap not strictly below chunk_size is a
configuration error reported immediately (fail fast, never a silent
infinite loop). -/
def chunk_text (text : List Char) (cs ov : Nat) : Except String (List (List Char)) :=
  if cs ≤ ov then
    Except.error "chunk_overlap must be strictly less than chunk_size"
  else
    match chunkLoop text cs ov (text.length + 1) 0 with
    | none => Except.error "chunker fuel exhausted"
    | some l => Except.ok l

/-- Nat version of the ceiling of n / s. -/
def chunkCeil (n s : Nat) : Nat :=
  (n + s - 1) / s

/-- The window of text covered by chunk number i. -/
def chunkWindow (text : List Char) (cs ov i : Nat) : List Char :=
  (text.drop (i * (cs - ov))).take cs

/-- Closed form of the list of chunks produced by the sliding-window
chunker for a given text. -/
def closedChunks (text : List Char) (cs ov : Nat) : List (List Char) :=
  (List.range (chunkCeil text.length (cs - ov))).map (chunkWindow text cs ov)

/-- The number of chunks the chunker reports for a text, zero on a
configuration error. -/
def chunkCount (text : List Char) (cs ov : Nat) : Nat :=
  ((chunk_text text cs ov).toOption.getD []).length

/-- Modelled from the spec: a persisted chunk record of the vector store
(the backend search service is absent from this tree).  The embedding
vector is not carried: queries observe it only through the distance
function, which is passed to the retriever explicitly. -/
structure ChunkRecord where
  id : String
  file_path : String
  chunk_number : Nat
  text : List Char
deriving DecidableEq

/-- The single durable collection of chunk records. -/
abbrev Store := List ChunkRecord

/-- Modelled from the spec: the deterministic persisted id of a chunk,
the file path followed by "-chunk-" and the chunk number. -/
def chunkId (fp : String) (n : Nat) : String :=
  fp ++ "-chunk-" ++ toString n

/-- The records produced for one file from its list of chunks, numbered
in left-to-right scan order starting at zero. -/
def fileRecords (fp : String) (cks : List (List Char)) : List ChunkRecord :=
  cks.enum.map (fun p => ⟨chunkId fp p.1, fp, p.1, p.2⟩)

/-- Modelled from the spec: indexing one file first deletes any existing
chunks for that exact file path, then upserts the freshly chunked
records; a per-file chunking failure skips the file and leaves the rest
of the batch untouched. -/
def indexFile (cs ov : Nat) (store : Store) (f : String × List Char) : Store :=
  match chunk_text f.2 cs ov with
  | Except.error _ => store
  | Except.ok cks => store.filter (fun r => r.file_path != f.1) ++ fileRecords f.1 cks

/-- Modelled from the spec: index_folder chunks, embeds and upserts every
file of the mapping in order. -/
def index_folder (store : Store) (files : List (String × List Char)) (cs ov : Nat) : Store :=
  files.foldl (indexFile cs ov) store

/-- Modelled from the spec: the indexed_chunks count reported by
index_folder (files that fail to chunk contribute nothing). -/
def indexed_chunks_count (files : List (String × List Char)) (cs ov : Nat) : Nat :=
  (files.map (fun f => chunkCount f.2 cs ov)).sum

/-- The startswith test on file paths, character by character. -/
def pathStartsWith (pfx p : String) : Bool :=
  pfx.toList.isPrefixOf p.toList

/-- Modelled from the spec: delete_folder removes every record whose
file path starts with the given path, and is a no-op on the rest. -/
def delete_folder (store : Store) (pfx : String) : Store :=
  store.filter (fun r => !(pathStartsWith pfx r.file_path))

/-- Modelled from the spec: the debug listing of indexed file paths,
without duplicates. -/
def list_indexed_files (store : Store) : List String :=
  (store.map (fun r => r.file_path)).dedup

/-- A search result, translated from the frontend SearchResult type. -/
structure SearchResult where
  file_path : String
  content_snippet : List Char
  distance : ℚ
  chunk_number : Nat
deriving DecidableEq

/-- Candidates are ordered by ascending distance. -/
def byDistance (a b : ChunkRecord × ℚ) : Prop :=
  a.2 ≤ b.2

instance : DecidableRel byDistance :=
  fun a b => inferInstanceAs (Decidable (a.2 ≤ b.2))

instance : IsTotal (ChunkRecord × ℚ) byDistance :=
  ⟨fun a b => le_total a.2 b.2⟩

instance : IsTrans (ChunkRecord × ℚ) byDistance :=
  ⟨fun _ _ _ h1 h2 => le_trans h1 h2⟩

/-- Modelled from the spec: the k-nearest-neighbour query of the vector
store returns the k records closest to the query embedding, ascending by
distance; the distance function abstracts the embedding of the query. -/
def storeQuery (store : Store) (dist : ChunkRecord → ℚ) (k : Nat) : List (ChunkRecord × ℚ) :=
  ((store.map (fun r => (r, dist r))).insertionSort byDistance).take k

/-- The search result built from one candidate chunk. -/
def mkResult (p : ChunkRecord × ℚ) : SearchResult :=
  ⟨p.1.file_path, p.1.text, p.2, p.1.chunk_number⟩

/-- Modelled from the spec: the retriever walks the candidates in
ascending-distance order, emits one result for each file path not yet
seen, and stops once n results are emitted or candidates run out. -/
def dedupLoop : List (ChunkRecord × ℚ) → List String → Nat → List SearchResult
  | [], _, _ => []
  | p :: rest, seen, n =>
    if n = 0 then []
    else if p.1.file_path ∈ seen then dedupLoop rest seen n
    else mkResult p :: dedupLoop rest (p.1.file_path :: seen) (n - 1)

/-- Modelled from the spec: search embeds the query, over-fetches
candidate_n candidates from the store and deduplicates them down to at
most n_results distinct files. -/
def search (dist : ChunkRecord → ℚ) (store : Store) (n_results candidate_n : Nat) :
    List SearchResult :=
  dedupLoop (storeQuery store dist candidate_n) [] n_results

/-- A three-record sample store: file "a" with two chunks, file "b" with
one. -/
def sampleStore : Store :=
  [ChunkRecord.mk "a-chunk-0" "a" 0 ['p'],
   ChunkRecord.mk "a-chunk-1" "a" 1 ['q'],
   ChunkRecord.mk "b-chunk-0" "b" 0 ['r']]

/-- A sample distance assignment: the second chunk of file "a" is the
best match, the chunk of file "b" second, the first chunk of "a" worst. -/
def sampleDist : ChunkRecord → ℚ :=
  fun r => if r.id = "a-chunk-0" then 3 else if r.id = "a-chunk-1" then 1 else 2

/-- From the frontend SearchResults component: the similarity percentage
rendered for a result with the given distance. -/
def similarityPercent (distance : ℚ) : ℚ :=
  (1 - distance) * 100

/-- The folder status enumeration, translated from the frontend types
module. -/
inductive FolderStatus where
  | not_indexed
  | indexing
  | indexed
  | outdated
  | failed
deriving DecidableEq

/-- Modelled from the spec: the allowed externally observed status
transitions of a folder (the backend holding this lifecycle is absent
from this tree). -/
def statusStep : FolderStatus → FolderStatus → Bool
  | FolderStatus.not_indexed, FolderStatus.indexing => true
  | FolderStatus.indexing, FolderStatus.indexed => true
  | FolderStatus.indexed, FolderStatus.outdated => true
  | FolderStatus.indexing, FolderStatus.failed => true
  | _, _ => false

/-- From the frontend Login component: the port field value after the
effect reacting to the HTTPS checkbox runs, given the new checkbox state
and the current port field. -/
def portAfterToggle (secure : Bool) (port : String) : String :=
  if secure = true ∧ port = "5000" then "5001"
  else if secure = false ∧ port = "5001" then "5000"
  else port

/-- The records one file contributes to the store (none when chunking
fails, per-file isolation). -/
def fileChunks (cs ov : Nat) (f : String × List Char) : List ChunkRecord :=
  match chunk_text f.2 cs ov with
  | Except.error _ => []
  | Except.ok cks => fileRecords f.1 cks

/-- All records a folder contributes to the store, in batch order. -/
def allRecords : List (String × List Char) → Nat → Nat → List ChunkRecord
  | [], _, _ => []
  | f :: fs, cs, ov => fileChunks cs ov f ++ allRecords fs cs ov

/-- The identity key of a stored record. -/
def recordKey (r : ChunkRecord) : String × Nat :=
  (r.file_path, r.chunk_number)

theorem chunkCeil_zero (s : Nat) : chunkCeil 0 s = 0 := by
  unfold chunkCeil
  rcases s with _ | s
  · rfl
  · simp [Nat.div_eq_of_lt]

theorem chunkCeil_step (n s : Nat) (hs : 0 < s) (hn : 0 < n) :
    chunkCeil n s = chunkCeil (n - s) s + 1 := by
  unfold chunkCeil
  rcases le_or_lt n s with h | h
  · have h1 : n - s = 0 := Nat.sub_eq_zero_of_le h
    rw [h1]
    have h2 : (0 + s - 1) / s = 0 := by
      apply Nat.div_eq_of_lt
      omega
    rw [h2]
    have h5 : (n + s - 1) / s = 1 := by
      apply Nat.div_eq_of_lt_le
      · omega
      · omega
    omega
  · have h1 : n + s - 1 = (n - s + s - 1) + s := by omega
    rw [h1, Nat.add_div_right _ hs]

theorem chunkLoop_eq (text : List Char) (cs ov : Nat) (hov : ov < cs) :
    ∀ fuel start, text.length - start < fuel →
      chunkLoop text cs ov fuel start =
        some ((List.range (chunkCeil (text.length - start) (cs - ov))).map
          (fun i => (text.drop (start + i * (cs - ov))).take cs)) := by
  intro fuel
  induction fuel with
  | zero => intro start h; omega
  | succ fuel ih =>
    intro start h
    have hs : 0 < cs - ov := by omega
    by_cases hlt : start < text.length
    · have hrec : text.length - (start + (cs - ov)) < fuel := by omega
      have := ih (start + (cs - ov)) hrec
      rw [chunkLoop, if_pos hlt, this]
      have hn : 0 < text.length - start := by omega
      have hsub : text.length - (start + (cs - ov)) = (text.length - start) - (cs - ov) := by
        omega
      rw [hsub, chunkCeil_step _ _ hs hn, List.range_succ_eq_map]
      simp only [List.map_cons, List.map_map, Option.some.injEq, List.cons.injEq]
      constructor
      · simp
      · apply List.map_congr_left
        intro i _
        simp only [Function.comp_apply]
        have : start + (cs - ov) + i * (cs - ov) = start + (i + 1) * (cs - ov) := by ring
        rw [this]
    · have hstop : text.length - start = 0 := by omega
      rw [chunkLoop, if_neg hlt, hstop, chunkCeil_zero]
      simp

theorem chunk_text_ok (text : List Char) (cs ov : Nat) (hov : ov < cs) :
    chunk_text text cs ov = Except.ok (closedChunks text cs ov) := by
  unfold chunk_text
  rw [if_neg (by omega)]
  have h := chunkLoop_eq text cs ov hov (text.length + 1) 0 (by omega)
  rw [h]
  unfold closedChunks chunkWindow
  simp

theorem closedChunks_get (text : List Char) (cs ov : Nat) (i : Nat)
    (hi : i < (closedChunks text cs ov).length) :
    (closedChunks text cs ov).get ⟨i, hi⟩ = (text.drop (i * (cs - ov))).take cs := by
  simp [closedChunks, chunkWindow]

/-- C1: the claim that a text with 0 < length ≤ chunk_size yields exactly
one chunk is false on the modelled chunker: a five-character text with
chunk_size 5 and overlap 1 yields two chunks (window starts 0 and 4 are
both below the text length). -/
theorem chunk_count_claim_counterexample :
    0 < (['a', 'b', 'c', 'd', 'e'] : List Char).length ∧
    (['a', 'b', 'c', 'd', 'e'] : List Char).length ≤ 5 ∧
    chunkCount ['a', 'b', 'c', 'd', 'e'] 5 1 ≠ 1 ∧
    chunkCount ['a', 'b', 'c', 'd', 'e'] 5 1 = 2 := by
  refine ⟨by decide, by decide, ?_, ?_⟩
  · decide
  · decide

/-- C1 (amended): for overlap < size the chunker succeeds and returns
ceil(L / (cs - ov)) chunks; chunk i is the window of cs characters
starting at offset i * (cs - ov) (the last chunks truncated to the
remaining text); the empty text yields no chunks; and whenever chunk i is
not truncated, chunk i + 1 begins with exactly the ov characters that end
chunk i (consecutive chunks overlap by exactly ov characters). -/
theorem chunk_text_spec (text : List Char) (cs ov : Nat) (hov : ov < cs) :
    ∃ l, chunk_text text cs ov = Except.ok l ∧
      l.length = chunkCeil text.length (cs - ov) ∧
      (text.length = 0 → l = []) ∧
      (∀ i (hi : i < l.length), l.get ⟨i, hi⟩ = (text.drop (i * (cs - ov))).take cs) ∧
      (∀ i (h1 : i < l.length) (h2 : i + 1 < l.length),
        i * (cs - ov) + cs ≤ text.length →
        (l.get ⟨i + 1, h2⟩).take ov = (l.get ⟨i, h1⟩).drop (cs - ov) ∧
        ((l.get ⟨i + 1, h2⟩).take ov).length = ov) := by
  refine ⟨closedChunks text cs ov, chunk_text_ok text cs ov hov, ?_, ?_, ?_, ?_⟩
  · simp [closedChunks]
  · intro h0
    simp [closedChunks, h0, chunkCeil_zero]
  · intro i hi
    exact closedChunks_get text cs ov i hi
  · intro i h1 h2 hfull
    rw [closedChunks_get text cs ov i h1, closedChunks_get text cs ov (i + 1) h2]
    have hs : cs - (cs - ov) = ov := by omega
    have hmul : (i + 1) * (cs - ov) = (cs - ov) + i * (cs - ov) := by ring
    constructor
    · rw [List.take_take, Nat.min_eq_left (Nat.le_of_lt hov), List.drop_take,
        List.drop_drop, hs, hmul, Nat.add_comm]
    · rw [List.take_take, Nat.min_eq_left (Nat.le_of_lt hov), List.length_take,
        List.length_drop]
      have : (i + 1) * (cs - ov) + ov ≤ text.length := by
        have : (i + 1) * (cs - ov) + ov = i * (cs - ov) + cs := by
          rw [hmul]; omega
        omega
      omega

/-- Witness for chunk_text_spec at text "abc", chunk_size 2, overlap 1. -/
theorem chunk_text_spec_witness :
    ∃ l, chunk_text ['a', 'b', 'c'] 2 1 = Except.ok l ∧
      l.length = chunkCeil (['a', 'b', 'c'] : List Char).length (2 - 1) ∧
      ((['a', 'b', 'c'] : List Char).length = 0 → l = []) ∧
      (∀ i (hi : i < l.length),
        l.get ⟨i, hi⟩ = ((['a', 'b', 'c'] : List Char).drop (i * (2 - 1))).take 2) ∧
      (∀ i (h1 : i < l.length) (h2 : i + 1 < l.length),
        i * (2 - 1) + 2 ≤ (['a', 'b', 'c'] : List Char).length →
        (l.get ⟨i + 1, h2⟩).take 1 = (l.get ⟨i, h1⟩).drop (2 - 1) ∧
        ((l.get ⟨i + 1, h2⟩).take 1).length = 1) :=
  chunk_text_spec ['a', 'b', 'c'] 2 1 (by decide)

/-- C7: overlap at least size makes chunk_text fail fast with the
configuration error, and for every overlap strictly below the size the
chunker terminates with a result. -/
theorem chunk_text_failfast (text : List Char) (cs ov : Nat) :
    (cs ≤ ov →
      chunk_text text cs ov =
        Except.error "chunk_overlap must be strictly less than chunk_size") ∧
    (ov < cs → ∃ l, chunk_text text cs ov = Except.ok l) := by
  constructor
  · intro h
    unfold chunk_text
    rw [if_pos h]
  · intro h
    exact ⟨closedChunks text cs ov, chunk_text_ok text cs ov h⟩

/-- Witness for chunk_text_failfast: overlap 2 with size 1 errors, and
overlap 1 with size 2 succeeds, on the text "hi". -/
theorem chunk_text_failfast_witness :
    chunk_text ['h', 'i'] 1 2 =
      Except.error "chunk_overlap must be strictly less than chunk_size" ∧
    (∃ l, chunk_text ['h', 'i'] 2 1 = Except.ok l) :=
  ⟨(chunk_text_failfast ['h', 'i'] 1 2).1 (by decide),
   (chunk_text_failfast ['h', 'i'] 2 1).2 (by decide)⟩

theorem dedupLoop_not_seen :
    ∀ (cands : List (ChunkRecord × ℚ)) (seen : List String) (n : Nat)
      (res : SearchResult), res ∈ dedupLoop cands seen n → res.file_path ∉ seen := by
  intro cands
  induction cands with
  | nil => intro seen n res h; simp [dedupLoop] at h
  | cons p rest ih =>
    intro seen n res h
    rw [dedupLoop] at h
    by_cases hn : n = 0
    · rw [if_pos hn] at h; simp at h
    · rw [if_neg hn] at h
      by_cases hseen : p.1.file_path ∈ seen
      · rw [if_pos hseen] at h
        exact ih seen n res h
      · rw [if_neg hseen] at h
        rcases List.mem_cons.mp h with he | hm
        · subst he
          simpa [mkResult] using hseen
        · intro hmem
          exact ih _ _ _ hm (List.mem_cons_of_mem _ hmem)

theorem dedupLoop_from_cands :
    ∀ (cands : List (ChunkRecord × ℚ)) (seen : List String) (n : Nat)
      (res : SearchResult), res ∈ dedupLoop cands seen n →
      ∃ p ∈ cands, res = mkResult p := by
  intro cands
  induction cands with
  | nil => intro seen n res h; simp [dedupLoop] at h
  | cons p rest ih =>
    intro seen n res h
    rw [dedupLoop] at h
    by_cases hn : n = 0
    · rw [if_pos hn] at h; simp at h
    · rw [if_neg hn] at h
      by_cases hseen : p.1.file_path ∈ seen
      · rw [if_pos hseen] at h
        obtain ⟨q, hq, he⟩ := ih seen n res h
        exact ⟨q, List.mem_cons_of_mem _ hq, he⟩
      · rw [if_neg hseen] at h
        rcases List.mem_cons.mp h with he | hm
        · exact ⟨p, List.mem_cons_self _ _, he⟩
        · obtain ⟨q, hq, he⟩ := ih _ _ _ hm
          exact ⟨q, List.mem_cons_of_mem _ hq, he⟩

theorem dedupLoop_nodup :
    ∀ (cands : List (ChunkRecord × ℚ)) (seen : List String) (n : Nat),
      (dedupLoop cands seen n).Pairwise (fun a b => a.file_path ≠ b.file_path) := by
  intro cands
  induction cands with
  | nil => intro seen n; simp [dedupLoop]
  | cons p rest ih =>
    intro seen n
    rw [dedupLoop]
    by_cases hn : n = 0
    · rw [if_pos hn]; simp
    · rw [if_neg hn]
      by_cases hseen : p.1.file_path ∈ seen
      · rw [if_pos hseen]
        exact ih seen n
      · rw [if_neg hseen]
        refine List.Pairwise.cons ?_ (ih _ _)
        intro b hb
        have := dedupLoop_not_seen _ _ _ _ hb
        intro he
        exact this (by rw [← he]; exact List.mem_cons_self _ _)

theorem dedupLoop_best :
    ∀ (cands : List (ChunkRecord × ℚ)) (seen : List String) (n : Nat),
      cands.Pairwise byDistance →
      ∀ res ∈ dedupLoop cands seen n, ∀ p ∈ cands,
        p.1.file_path = res.file_path → res.distance ≤ p.2 := by
  intro cands
  induction cands with
  | nil => intro seen n _ res h; simp [dedupLoop] at h
  | cons p rest ih =>
    intro seen n hsort res h q hq hpath
    have hrest : rest.Pairwise byDistance := hsort.of_cons
    have hhead : ∀ b ∈ rest, byDistance p b := (List.pairwise_cons.mp hsort).1
    rw [dedupLoop] at h
    by_cases hn : n = 0
    · rw [if_pos hn] at h; simp at h
    · rw [if_neg hn] at h
      by_cases hseen : p.1.file_path ∈ seen
      · rw [if_pos hseen] at h
        rcases List.mem_cons.mp hq with he | hm
        · subst he
          have := dedupLoop_not_seen _ _ _ _ h
          rw [hpath] at hseen
          exact absurd hseen this
        · exact ih seen n hrest res h q hm hpath
      · rw [if_neg hseen] at h
        rcases List.mem_cons.mp h with he | hm
        · subst he
          rcases List.mem_cons.mp hq with he2 | hm2
          · subst he2; exact le_refl _
          · exact hhead q hm2
        · rcases List.mem_cons.mp hq with he2 | hm2
          · subst he2
            have := dedupLoop_not_seen _ _ _ _ hm
            rw [hpath] at this
            exact absurd (List.mem_cons_self _ _) this
          · exact ih _ _ hrest res hm q hm2 hpath

theorem dedupLoop_sorted :
    ∀ (cands : List (ChunkRecord × ℚ)) (seen : List String) (n : Nat),
      cands.Pairwise byDistance →
      (dedupLoop cands seen n).Pairwise (fun a b => a.distance ≤ b.distance) := by
  intro cands
  induction cands with
  | nil => intro seen n _; simp [dedupLoop]
  | cons p rest ih =>
    intro seen n hsort
    have hrest : rest.Pairwise byDistance := hsort.of_cons
    have hhead : ∀ b ∈ rest, byDistance p b := (List.pairwise_cons.mp hsort).1
    rw [dedupLoop]
    by_cases hn : n = 0
    · rw [if_pos hn]; simp
    · rw [if_neg hn]
      by_cases hseen : p.1.file_path ∈ seen
      · rw [if_pos hseen]
        exact ih seen n hrest
      · rw [if_neg hseen]
        refine List.Pairwise.cons ?_ (ih _ _ hrest)
        intro b hb
        obtain ⟨q, hq, he⟩ := dedupLoop_from_cands _ _ _ _ hb
        have : p.2 ≤ q.2 := hhead q hq
        rw [he]
        simpa [mkResult] using this

theorem dedupLoop_length :
    ∀ (cands : List (ChunkRecord × ℚ)) (seen : List String) (n : Nat),
      (dedupLoop cands seen n).length ≤ n := by
  intro cands
  induction cands with
  | nil => intro seen n; simp [dedupLoop]
  | cons p rest ih =>
    intro seen n
    rw [dedupLoop]
    by_cases hn : n = 0
    · rw [if_pos hn]; simp
    · rw [if_neg hn]
      by_cases hseen : p.1.file_path ∈ seen
      · rw [if_pos hseen]
        exact ih seen n
      · rw [if_neg hseen]
        have := ih (p.1.file_path :: seen) (n - 1)
        simp only [List.length_cons]
        omega

theorem storeQuery_sorted (store : Store) (dist : ChunkRecord → ℚ) (k : Nat) :
    (storeQuery store dist k).Pairwise byDistance := by
  unfold storeQuery
  exact List.Pairwise.sublist (List.take_sublist _ _)
    (List.sorted_insertionSort byDistance (store.map (fun r => (r, dist r))))

theorem storeQuery_mem (store : Store) (dist : ChunkRecord → ℚ) (k : Nat)
    (p : ChunkRecord × ℚ) (h : p ∈ storeQuery store dist k) : p.1 ∈ store := by
  unfold storeQuery at h
  have h2 := (List.take_subset _ _) h
  have h3 := (List.mem_insertionSort byDistance).mp h2
  obtain ⟨r, hr, he⟩ := List.mem_map.mp h3
  rw [← he]
  exact hr

theorem nodup_length_le_dedup {α : Type} [DecidableEq α] {l1 l2 : List α}
    (h1 : l1.Nodup) (hsub : ∀ a ∈ l1, a ∈ l2) : l1.length ≤ l2.dedup.length := by
  have hcard : l1.toFinset.card = l1.length := List.toFinset_card_of_nodup h1
  have hcard2 : l2.toFinset.card = l2.dedup.length := List.card_toFinset l2
  rw [← hcard, ← hcard2]
  apply Finset.card_le_card
  intro a ha
  rw [List.mem_toFinset] at ha ⊢
  exact hsub a ha

/-- C2: for every store, distance assignment, n_results and candidate
count, the search results contain no two entries with the same file path,
and the entry emitted for a file carries a distance no larger than that
of any fetched candidate chunk of the same file (the best-scoring
candidate chunk). -/
theorem search_dedup_best (store : Store) (dist : ChunkRecord → ℚ)
    (n_results candidate_n : Nat) :
    (search dist store n_results candidate_n).Pairwise
      (fun a b => a.file_path ≠ b.file_path) ∧
    (∀ res ∈ search dist store n_results candidate_n,
      ∀ p ∈ storeQuery store dist candidate_n,
        p.1.file_path = res.file_path → res.distance ≤ p.2) ∧
    (∀ res ∈ search dist store n_results candidate_n,
      ∃ p ∈ storeQuery store dist candidate_n, res = mkResult p) := by
  refine ⟨dedupLoop_nodup _ _ _, ?_, ?_⟩
  · intro res hres p hp hpath
    exact dedupLoop_best _ _ _ (storeQuery_sorted store dist candidate_n)
      res hres p hp hpath
  · intro res hres
    exact dedupLoop_from_cands _ _ _ _ hres

/-- Witness for search_dedup_best on the sample store: the result for
file "a" is its best chunk, beating the distance-3 candidate of the same
file, and comes from a fetched candidate. -/
theorem search_dedup_best_witness :
    (mkResult (ChunkRecord.mk "a-chunk-1" "a" 1 ['q'], 1)).distance ≤ 3 ∧
    (∃ p ∈ storeQuery sampleStore sampleDist 50,
      mkResult (ChunkRecord.mk "a-chunk-1" "a" 1 ['q'], 1) = mkResult p) :=
  ⟨(search_dedup_best sampleStore sampleDist 5 50).2.1
      (mkResult (ChunkRecord.mk "a-chunk-1" "a" 1 ['q'], 1)) (by decide)
      (ChunkRecord.mk "a-chunk-0" "a" 0 ['p'], 3) (by decide) (by decide),
   (search_dedup_best sampleStore sampleDist 5 50).2.2
      (mkResult (ChunkRecord.mk "a-chunk-1" "a" 1 ['q'], 1)) (by decide)⟩

/-- C3: the distances of the search results are non-decreasing from the
first entry to the last. -/
theorem search_sorted (store : Store) (dist : ChunkRecord → ℚ)
    (n_results candidate_n : Nat) :
    (search dist store n_results candidate_n).Pairwise
      (fun a b => a.distance ≤ b.distance) :=
  dedupLoop_sorted _ _ _ (storeQuery_sorted store dist candidate_n)

/-- C8: search over the empty store returns the empty list; search never
pads, returning at most n_results entries and at most one entry per
distinct indexed file; and delete_folder on a path under which nothing is
indexed is an exact no-op on the store. -/
theorem search_delete_missing_ok (store : Store) (dist : ChunkRecord → ℚ)
    (n_results candidate_n : Nat) (pfx : String) :
    search dist [] n_results candidate_n = [] ∧
    (search dist store n_results candidate_n).length ≤ n_results ∧
    (search dist store n_results candidate_n).length ≤
      (list_indexed_files store).length ∧
    ((∀ r ∈ store, pathStartsWith pfx r.file_path = false) →
      delete_folder store pfx = store) := by
  refine ⟨by simp [search, storeQuery, dedupLoop], dedupLoop_length _ _ _, ?_, ?_⟩
  · have hnodup :
        ((search dist store n_results candidate_n).map
          (fun res => res.file_path)).Nodup :=
      List.pairwise_map.mpr (dedupLoop_nodup _ _ _)
    have hsub : ∀ a ∈ (search dist store n_results candidate_n).map
        (fun res => res.file_path), a ∈ store.map (fun r => r.file_path) := by
      intro a ha
      obtain ⟨res, hres, he⟩ := List.mem_map.mp ha
      obtain ⟨p, hp, he2⟩ := dedupLoop_from_cands _ _ _ _ hres
      refine List.mem_map.mpr ⟨p.1, storeQuery_mem store dist candidate_n p hp, ?_⟩
      rw [← he, he2]
      rfl
    have := nodup_length_le_dedup hnodup hsub
    rw [List.length_map] at this
    exact this
  · intro hnone
    unfold delete_folder
    apply List.filter_eq_self.mpr
    intro r hr
    rw [hnone r hr]
    rfl

/-- Witness for search_delete_missing_ok: a one-record store under path
"a" with the never-indexed folder "/docs". -/
theorem search_delete_missing_ok_witness :
    search (fun _ => 0) [] 5 50 = [] ∧
    (search (fun _ => 0) [ChunkRecord.mk "a-chunk-0" "a" 0 ['x']] 5 50).length ≤ 5 ∧
    (search (fun _ => 0) [ChunkRecord.mk "a-chunk-0" "a" 0 ['x']] 5 50).length ≤
      (list_indexed_files [ChunkRecord.mk "a-chunk-0" "a" 0 ['x']]).length ∧
    delete_folder [ChunkRecord.mk "a-chunk-0" "a" 0 ['x']] "/docs" =
      [ChunkRecord.mk "a-chunk-0" "a" 0 ['x']] := by
  have h := search_delete_missing_ok
    [ChunkRecord.mk "a-chunk-0" "a" 0 ['x']] (fun _ => 0) 5 50 "/docs"
  exact ⟨h.1, h.2.1, h.2.2.1, h.2.2.2 (by decide)⟩

/-- C5: after indexing a folder whose file paths all lie under a path
and then deleting that path, the store holds no chunk whose file path is
under the path, and the indexed-files listing contains none of the
folder paths (nested subfolders included). -/
theorem index_then_delete_folder (store : Store) (files : List (String × List Char))
    (cs ov : Nat) (pfx : String)
    (h : ∀ f ∈ files, pathStartsWith pfx f.1 = true) :
    (∀ r ∈ delete_folder (index_folder store files cs ov) pfx,
      pathStartsWith pfx r.file_path = false) ∧
    (∀ f ∈ files,
      f.1 ∉ list_indexed_files (delete_folder (index_folder store files cs ov) pfx)) := by
  have hdel : ∀ r ∈ delete_folder (index_folder store files cs ov) pfx,
      pathStartsWith pfx r.file_path = false := by
    intro r hr
    have := List.of_mem_filter hr
    simpa using this
  refine ⟨hdel, ?_⟩
  intro f hf hmem
  unfold list_indexed_files at hmem
  rw [List.mem_dedup] at hmem
  obtain ⟨r, hr, he⟩ := List.mem_map.mp hmem
  have hfalse := hdel r hr
  rw [he, h f hf] at hfalse
  simp at hfalse

/-- Witness for index_then_delete_folder: index two files under "/docs",
one in a nested subfolder, then delete "/docs". -/
theorem index_then_delete_folder_witness :
    (∀ r ∈ delete_folder (index_folder []
        [("/docs/a.txt", ['h', 'i']), ("/docs/sub/b.txt", ['y', 'o'])] 5 1) "/docs",
      pathStartsWith "/docs" r.file_path = false) ∧
    (∀ f ∈ ([("/docs/a.txt", ['h', 'i']), ("/docs/sub/b.txt", ['y', 'o'])] :
        List (String × List Char)),
      f.1 ∉ list_indexed_files (delete_folder (index_folder []
        [("/docs/a.txt", ['h', 'i']), ("/docs/sub/b.txt", ['y', 'o'])] 5 1) "/docs")) :=
  index_then_delete_folder []
    [("/docs/a.txt", ['h', 'i']), ("/docs/sub/b.txt", ['y', 'o'])] 5 1 "/docs"
    (by decide)

/-- C4: the displayed similarity percentage is exactly (1 - d) * 100,
with no clamping to the range 0 to 100; every distance above 1 renders
as a negative percentage. -/
theorem similarityPercent_formula (d : ℚ) :
    similarityPercent d = (1 - d) * 100 ∧ (1 < d → similarityPercent d < 0) := by
  refine ⟨rfl, ?_⟩
  intro h
  unfold similarityPercent
  nlinarith

/-- Witness for similarityPercent_formula at distance 2, which renders
as a negative percentage. -/
theorem similarityPercent_formula_witness :
    similarityPercent 2 = (1 - 2) * 100 ∧ similarityPercent 2 < 0 :=
  ⟨(similarityPercent_formula 2).1, (similarityPercent_formula 2).2 (by norm_num)⟩

/-- C9: a folder status is always one of exactly the five enumerated
values, and a status change is allowed exactly when it is one of the four
listed transitions. -/
theorem folder_status_transitions :
    (∀ s : FolderStatus, s = FolderStatus.not_indexed ∨ s = FolderStatus.indexing ∨
      s = FolderStatus.indexed ∨ s = FolderStatus.outdated ∨ s = FolderStatus.failed) ∧
    (∀ a b : FolderStatus, statusStep a b = true ↔
      ((a = FolderStatus.not_indexed ∧ b = FolderStatus.indexing) ∨
       (a = FolderStatus.indexing ∧ b = FolderStatus.indexed) ∨
       (a = FolderStatus.indexed ∧ b = FolderStatus.outdated) ∨
       (a = FolderStatus.indexing ∧ b = FolderStatus.failed))) := by
  constructor
  · intro s
    cases s <;> simp
  · intro a b
    cases a <;> cases b <;> simp [statusStep]

/-- C10: toggling the HTTPS checkbox swaps the port only between the two
scheme defaults: enabling HTTPS turns port 5000 into 5001, disabling
turns 5001 into 5000, and any other port value is left unchanged. -/
theorem login_port_toggle (port : String) :
    portAfterToggle true "5000" = "5001" ∧
    portAfterToggle false "5001" = "5000" ∧
    (port ≠ "5000" → portAfterToggle true port = port) ∧
    (port ≠ "5001" → portAfterToggle false port = port) := by
  refine ⟨by simp [portAfterToggle], by simp [portAfterToggle], ?_, ?_⟩
  · intro h
    simp [portAfterToggle, h]
  · intro h
    simp [portAfterToggle, h]

/-- Witness for login_port_toggle at the user-entered port 8080, which
neither toggle direction touches. -/
theorem login_port_toggle_witness :
    portAfterToggle true "8080" = "8080" ∧ portAfterToggle false "8080" = "8080" :=
  ⟨(login_port_toggle "8080").2.2.1 (by decide),
   (login_port_toggle "8080").2.2.2 (by decide)⟩

theorem fileRecords_path (fp : String) (cks : List (List Char)) :
    ∀ r ∈ fileRecords fp cks, r.file_path = fp := by
  intro r hr
  obtain ⟨p, _, he⟩ := List.mem_map.mp hr
  rw [← he]

theorem allRecords_path (cs ov : Nat) :
    ∀ (files : List (String × List Char)), ∀ r ∈ allRecords files cs ov,
      r.file_path ∈ files.map Prod.fst := by
  intro files
  induction files with
  | nil => intro r hr; simp [allRecords] at hr
  | cons f fs ih =>
    intro r hr
    rw [allRecords] at hr
    rcases List.mem_append.mp hr with h1 | h2
    · unfold fileChunks at h1
      rcases hck : chunk_text f.2 cs ov with e | cks
      · rw [hck] at h1; simp at h1
      · rw [hck] at h1
        rw [List.map_cons, fileRecords_path f.1 cks r h1]
        exact List.mem_cons_self _ _
    · rw [List.map_cons]
      exact List.mem_cons_of_mem _ (ih r h2)

theorem index_folder_eq (cs ov : Nat) (hov : ov < cs) :
    ∀ (files : List (String × List Char)), (files.map Prod.fst).Nodup →
      ∀ s : Store, index_folder s files cs ov =
        s.filter (fun r => !((files.map Prod.fst).contains r.file_path)) ++
          allRecords files cs ov := by
  intro files
  induction files with
  | nil =>
    intro _ s
    simp [index_folder, allRecords]
  | cons f fs ih =>
    intro hnd s
    rw [List.map_cons, List.nodup_cons] at hnd
    obtain ⟨hfp, hnd2⟩ := hnd
    have hstep : index_folder s (f :: fs) cs ov =
        index_folder (indexFile cs ov s f) fs cs ov := rfl
    rw [hstep, ih hnd2]
    have hfile : indexFile cs ov s f =
        s.filter (fun r => r.file_path != f.1) ++
          fileRecords f.1 (closedChunks f.2 cs ov) := by
      unfold indexFile
      rw [chunk_text_ok f.2 cs ov hov]
    rw [hfile, List.filter_append, List.append_assoc]
    have hkeep : (fileRecords f.1 (closedChunks f.2 cs ov)).filter
        (fun r => !((fs.map Prod.fst).contains r.file_path)) =
        fileRecords f.1 (closedChunks f.2 cs ov) := by
      apply List.filter_eq_self.mpr
      intro r hr
      rw [fileRecords_path f.1 _ r hr]
      simp [List.contains, hfp]
    rw [hkeep]
    have hpred : ∀ r : ChunkRecord,
        (!((fs.map Prod.fst).contains r.file_path) && (r.file_path != f.1)) =
          !(((f.1 :: fs.map Prod.fst) : List String).contains r.file_path) := by
      intro r
      by_cases h1 : r.file_path = f.1
      · simp [h1, List.contains]
      · simp [h1, List.contains, bne, Bool.and_comm]
    have hff : (s.filter (fun r => r.file_path != f.1)).filter
        (fun r => !((fs.map Prod.fst).contains r.file_path)) =
        s.filter (fun r => !(((f.1 :: fs.map Prod.fst) : List String).contains r.file_path)) := by
      rw [List.filter_filter]
      apply List.filter_congr
      intro r _
      exact hpred r
    rw [hff, List.map_cons, allRecords]
    have hfc : fileChunks cs ov f = fileRecords f.1 (closedChunks f.2 cs ov) := by
      unfold fileChunks
      rw [chunk_text_ok f.2 cs ov hov]
    rw [hfc]

theorem allRecords_filter_out (cs ov : Nat) (files : List (String × List Char)) :
    (allRecords files cs ov).filter
      (fun r => !((files.map Prod.fst).contains r.file_path)) = [] := by
  apply List.filter_eq_nil_iff.mpr
  intro r hr
  simp [List.contains, allRecords_path cs ov files r hr]

theorem fileRecords_keys (fp : String) (cks : List (List Char)) :
    (fileRecords fp cks).map recordKey =
      (cks.enum.map Prod.fst).map (fun i => (fp, i)) := by
  unfold fileRecords
  rw [List.map_map, List.map_map]
  apply List.map_congr_left
  intro p _
  rfl

theorem fileRecords_keys_nodup (fp : String) (cks : List (List Char)) :
    ((fileRecords fp cks).map recordKey).Nodup := by
  rw [fileRecords_keys]
  refine List.Nodup.map ?_ (List.nodup_enum_map_fst cks)
  intro a b hab
  simpa using hab

theorem allRecords_keys_nodup (cs ov : Nat) :
    ∀ (files : List (String × List Char)), (files.map Prod.fst).Nodup →
      ((allRecords files cs ov).map recordKey).Nodup := by
  intro files
  induction files with
  | nil => intro _; simp [allRecords]
  | cons f fs ih =>
    intro hnd
    rw [List.map_cons, List.nodup_cons] at hnd
    obtain ⟨hfp, hnd2⟩ := hnd
    rw [allRecords, List.map_append]
    have hhead : ((fileChunks cs ov f).map recordKey).Nodup := by
      unfold fileChunks
      rcases chunk_text f.2 cs ov with e | cks
      · simp
      · exact fileRecords_keys_nodup f.1 cks
    have hheadpath : ∀ k ∈ (fileChunks cs ov f).map recordKey, k.1 = f.1 := by
      intro k hk
      obtain ⟨r, hr, he⟩ := List.mem_map.mp hk
      unfold fileChunks at hr
      rcases hck : chunk_text f.2 cs ov with e | cks
      · rw [hck] at hr; simp at hr
      · rw [hck] at hr
        rw [← he]
        exact fileRecords_path f.1 cks r hr
    refine List.Nodup.append hhead (ih hnd2) ?_
    intro k hk1 hk2
    obtain ⟨r, hr, he⟩ := List.mem_map.mp hk2
    have hpath : k.1 ∈ fs.map Prod.fst := by
      rw [← he]
      exact allRecords_path cs ov fs r hr
    rw [hheadpath k hk1] at hpath
    exact hfp hpath

/-- C6: indexing the same folder twice with unchanged content is
idempotent: the second run leaves the store exactly as the first did
(hence the same chunk count and the same set of chunk ids, nothing
duplicated), and the indexed store holds exactly one record per pair of
file path and chunk number whenever the incoming store did. -/
theorem index_folder_idempotent (store : Store) (files : List (String × List Char))
    (cs ov : Nat) (hov : ov < cs) (hnd : (files.map Prod.fst).Nodup)
    (hstore : (store.map recordKey).Nodup) :
    index_folder (index_folder store files cs ov) files cs ov =
      index_folder store files cs ov ∧
    (index_folder (index_folder store files cs ov) files cs ov).map (fun r => r.id) =
      (index_folder store files cs ov).map (fun r => r.id) ∧
    (index_folder (index_folder store files cs ov) files cs ov).length =
      (index_folder store files cs ov).length ∧
    ((index_folder store files cs ov).map recordKey).Nodup := by
  have heq := index_folder_eq cs ov hov files hnd
  have h1 : index_folder (index_folder store files cs ov) files cs ov =
      index_folder store files cs ov := by
    rw [heq store, heq (store.filter
      (fun r => !((files.map Prod.fst).contains r.file_path)) ++
        allRecords files cs ov)]
    rw [List.filter_append, allRecords_filter_out]
    have hidem : (store.filter
        (fun r => !((files.map Prod.fst).contains r.file_path))).filter
          (fun r => !((files.map Prod.fst).contains r.file_path)) =
        store.filter (fun r => !((files.map Prod.fst).contains r.file_path)) := by
      rw [List.filter_filter]
      apply List.filter_congr
      intro r _
      rw [Bool.and_self]
    rw [hidem, List.append_nil]
  refine ⟨h1, congrArg (List.map (fun r => r.id)) h1, congrArg List.length h1, ?_⟩
  rw [heq store, List.map_append]
  have hleft : ((store.filter
      (fun r => !((files.map Prod.fst).contains r.file_path))).map recordKey).Nodup :=
    List.Nodup.sublist (List.Sublist.map recordKey (List.filter_sublist _)) hstore
  refine List.Nodup.append hleft (allRecords_keys_nodup cs ov files hnd) ?_
  intro k hk1 hk2
  obtain ⟨r, hr, he⟩ := List.mem_map.mp hk1
  have hout : (files.map Prod.fst).contains r.file_path = false := by
    have := List.of_mem_filter hr
    simpa using this
  obtain ⟨r2, hr2, he2⟩ := List.mem_map.mp hk2
  have hin : r2.file_path ∈ files.map Prod.fst := allRecords_path cs ov files r2 hr2
  have hsame : r.file_path = r2.file_path := by
    have : k.1 = r.file_path := by rw [← he]; rfl
    have h2 : k.1 = r2.file_path := by rw [← he2]; rfl
    rw [← this, ← h2]
  rw [hsame] at hout
  rw [List.contains, List.elem_eq_mem] at hout
  simp [hin] at hout

/-- Witness for index_folder_idempotent: a single three-character file
indexed into the empty store with chunk size 2 and overlap 1. -/
theorem index_folder_idempotent_witness :
    index_folder (index_folder [] [("a", ['x', 'y', 'z'])] 2 1) [("a", ['x', 'y', 'z'])] 2 1 =
      index_folder [] [("a", ['x', 'y', 'z'])] 2 1 ∧
    (index_folder (index_folder [] [("a", ['x', 'y', 'z'])] 2 1)
        [("a", ['x', 'y', 'z'])] 2 1).map (fun r => r.id) =
      (index_folder [] [("a", ['x', 'y', 'z'])] 2 1).map (fun r => r.id) ∧
    (index_folder (index_folder [] [("a", ['x', 'y', 'z'])] 2 1)
        [("a", ['x', 'y', 'z'])] 2 1).length =
      (index_folder [] [("a", ['x', 'y', 'z'])] 2 1).length ∧
    ((index_folder [] [("a", ['x', 'y', 'z'])] 2 1).map recordKey).Nodup :=
  index_folder_idempotent [] [("a", ['x', 'y', 'z'])] 2 1 (by decide) (by decide) (by decide)

end FileManagerNas
